import Mathlib

/-!
Verification development for the PyOptionTree binomial-lattice option
pricer (`pyop3/binomial_tree.py`, `pyop3/base_conditions.py`).

All machine floats of the source are modelled as exact rationals (ℚ).
Matrices (numpy arrays of shape (N+1)×(N+1)) are modelled as total
functions `ℕ → ℕ → ℚ`; positions outside the allocated matrix, and
positions never assigned by the source (the lower strict triangle), hold
the value 0, matching `np.zeros` initialisation.

The discount factor `exp(-r·Δt)` (continuous convention) is not a
rational number, so valuation functions take the discount factor
`disc_factor` as a parameter; the source's discrete convention
`1/(1+r·Δt)` and the CRR risk-neutral probability are embedded exactly.
-/

namespace PyOp3

/-- The state stored by `binomial_tree.__init__` that the lattice methods
read.  `ex_div_date_resolved` models the case where the caller supplied
`ex_div_date`: the source resolves it to a trading-day step count via the
external calendar adapter (`tools.get_trading_days`), so we carry the
resolved step directly; `ex_div_step` is the directly supplied step. -/
structure binomial_tree where
  spot_price : ℚ
  interest_rate : ℚ
  step : ℕ
  u : ℚ
  d : ℚ
  delta_t : ℚ
  dividend_dollar : ℚ
  dividend_yield : ℚ
  ex_div_date_resolved : Option ℕ
  ex_div_step : Option ℕ
deriving DecidableEq

/-- The raw (pre-dividend) price matrix built by `underlying_asset_tree`:
`S = np.zeros([N+1, N+1])`; then `S[:, -1]` is assigned
`S0·u^(N-row)·d^row` for every row `0..N`, and for each column `i < N`
the rows `0..i` are assigned `S0·u^(i-row)·d^row`.  Unassigned entries
keep the value 0. -/
def raw_asset_matrix (S0 u d : ℚ) (N : ℕ) (row col : ℕ) : ℚ :=
  if col = N ∧ row ≤ N then S0 * u ^ (N - row) * d ^ row
  else if row ≤ col ∧ col < N then S0 * u ^ (col - row) * d ^ row
  else 0

/-- Matrix `logic_matrix_1` of `__dividend_tree__`: ones, with every column
strictly before the ex-dividend step zeroed out. -/
def logic_matrix_1 (div_step : ℕ) (_row col : ℕ) : ℚ :=
  if col < div_step then 0 else 1

/-- Matrix `logic_matrix_2` of `__dividend_tree__`: row `r` holds `u` in its
first `N+1-r` columns and `d` in the remaining columns. -/
def logic_matrix_2 (u d : ℚ) (N : ℕ) (row col : ℕ) : ℚ :=
  if col < N + 1 - row then u else d

/-- The entry of `logic_matrix_3 = logic_matrix_1 * logic_matrix_2` after
the source overwrites column `div_step` with ones
(`logic_matrix_3[:, div_step] = 1`). -/
def div_cum_entry (u d : ℚ) (N div_step : ℕ) (row col : ℕ) : ℚ :=
  if col = div_step then 1
  else logic_matrix_1 div_step row col * logic_matrix_2 u d N row col

/-- Matrix `logic_matrix_3` after the in-place
`logic_matrix_3[:, div_step:] = cumprod(axis=1)`: columns before
`div_step` keep the masked product (which is 0 there); column `c ≥
div_step` holds the running product of the entries of columns
`div_step..c`. -/
def logic_matrix_3 (u d : ℚ) (N div_step : ℕ) (row col : ℕ) : ℚ :=
  if col < div_step then
    logic_matrix_1 div_step row col * logic_matrix_2 u d N row col
  else ∏ j ∈ Finset.Icc div_step col, div_cum_entry u d N div_step row j

/-- Matrix `logic_matrix_4 = np.triu(np.ones(N+1))`: upper triangle including
the diagonal. -/
def logic_matrix_4 (row col : ℕ) : ℚ :=
  if row ≤ col then 1 else 0

/-- The matrix `dividend_dollar * logic_matrix_5` returned by
`__dividend_tree__` once an ex-dividend step `div_step` is known, where
`logic_matrix_5 = logic_matrix_3 * logic_matrix_4`. -/
def dividend_lattice (D u d : ℚ) (N div_step : ℕ) (row col : ℕ) : ℚ :=
  D * (logic_matrix_3 u d N div_step row col * logic_matrix_4 row col)

/-- Method `binomial_tree.__dividend_tree__`: if an ex-dividend date was given
it is resolved (externally) to a step; otherwise the explicit
`ex_div_step` is used; if neither is set the zero matrix is returned. -/
def dividend_tree (t : binomial_tree) (row col : ℕ) : ℚ :=
  match t.ex_div_date_resolved with
  | some k => dividend_lattice t.dividend_dollar t.u t.d t.step k row col
  | none =>
    match t.ex_div_step with
    | some k => dividend_lattice t.dividend_dollar t.u t.d t.step k row col
    | none => 0

/-- Method `binomial_tree.underlying_asset_tree`: the raw matrix, minus the
dividend matrix when a dollar dividend is set, else scaled by
`(1 - dividend_yield·Δt)` when a dividend yield is set. -/
def underlying_asset_tree (t : binomial_tree) (row col : ℕ) : ℚ :=
  if t.dividend_dollar ≠ 0 then
    raw_asset_matrix t.spot_price t.u t.d t.step row col - dividend_tree t row col
  else if t.dividend_yield ≠ 0 then
    raw_asset_matrix t.spot_price t.u t.d t.step row col * (1 - t.dividend_yield * t.delta_t)
  else
    raw_asset_matrix t.spot_price t.u t.d t.step row col

/-- Constructor `binomial_tree.__init__` for the CRR model with the up-factor `u`
supplied directly (σ = None) and `freq_by = 'N'`, together with the
validation performed by `base_conditions.base_asset.__init__`.  Returns
the constructed state paired with a flag recording whether the
degenerate-up-factor warning was issued; fatal paths (failed `assert`
or `raise`) return `.error`.  `u = 0` fails the very first assertion
because `bool(0.0) ^ bool(None)` is false in Python. -/
def binomial_tree_init (S0 r T : ℚ) (N : ℕ) (u : ℚ) (div div_yield : ℚ)
    (ex_div_date_resolved ex_div_step : Option ℕ) :
    Except String (binomial_tree × Bool) :=
  if u = 0 then .error "Please assign non-None values to either only u or sigma!"
  else if ¬ 0 < N then .error "N must be an integer and is greater than 0!"
  else if ¬ 0 < T then .error "Spot date undefined! T needs to be greater than 0!"
  else if ex_div_date_resolved.isSome ∧ ex_div_step.isSome then
    .error "ex_div_date and ex_div_step cannot both be set!"
  else if div ≠ 0 ∧ div_yield ≠ 0 then .error "div and div_yield cannot both be set!"
  else
    let t : binomial_tree :=
      ⟨S0, r, N, u, 1 / u, T / N, div, div_yield, ex_div_date_resolved, ex_div_step⟩
    if 0 < u ∧ u ≤ 1 then .ok (t, true)
    else if u ≤ 0 then .error "u cannot be zero or negative!"
    else .ok (t, false)

/-- The discrete discounting convention `1/(1 + r·Δt)` selected by
`cont_disc = False` in `european_option.__init__`. -/
def disc_factor_discrete (r dt : ℚ) : ℚ := 1 / (1 + r * dt)

/-- The CRR risk-neutral probability
`(1/disc_factor - d)/(u - d)` computed in `european_option.__init__`
and `american_option.__init__`. -/
def risk_neutral_prob_crr (disc_factor u d : ℚ) : ℚ :=
  (1 / disc_factor - d) / (u - d)

/-- Terminal call payoff `np.maximum(0, asset_tree[:,-1] - strike)`,
row-indexed. -/
def call_terminal (S : ℕ → ℕ → ℚ) (K : ℚ) (N : ℕ) (row : ℕ) : ℚ :=
  max 0 (S row N - K)

/-- Terminal put payoff `np.maximum(0, strike - asset_tree[:,-1])`,
row-indexed. -/
def put_terminal (S : ℕ → ℕ → ℚ) (K : ℚ) (N : ℕ) (row : ℕ) : ℚ :=
  max 0 (K - S row N)

/-- European backward induction of `european_option.call` / `put`,
indexed by the number `m` of columns remaining to the terminal column:
`m = 0` is the terminal payoff and `m+1` steps from the terminal column
the value at row `row` is
`disc_factor·(p·V[row, col+1] + (1-p)·V[row+1, col+1])`. -/
def european_step (p disc_factor : ℚ) (term : ℕ → ℚ) : ℕ → ℕ → ℚ
  | 0, row => term row
  | m + 1, row =>
      disc_factor * (p * european_step p disc_factor term m row
        + (1 - p) * european_step p disc_factor term m (row + 1))

/-- The value matrix `V` produced by `european_option.call`: terminal
column holds the call payoff, column `i < N` rows `0..i` are filled by
the discounted-expectation recurrence, and every entry never assigned
keeps its `np.zeros` value 0. -/
def european_call_matrix (S : ℕ → ℕ → ℚ) (K p disc_factor : ℚ) (N : ℕ)
    (row col : ℕ) : ℚ :=
  if row ≤ col ∧ col ≤ N then
    european_step p disc_factor (call_terminal S K N) (N - col) row
  else 0

/-- The value matrix `V` produced by `european_option.put`. -/
def european_put_matrix (S : ℕ → ℕ → ℚ) (K p disc_factor : ℚ) (N : ℕ)
    (row col : ℕ) : ℚ :=
  if row ≤ col ∧ col ≤ N then
    european_step p disc_factor (put_terminal S K N) (N - col) row
  else 0

/-- American backward induction of `american_option.call` / `put`,
indexed by the number `m` of columns remaining to the terminal column:
at `m+1` steps from the terminal column (that is, at column `N-(m+1)`)
the value is
`max(intrinsic(row, N-(m+1)), disc_factor·(p·V[row, col+1] + (1-p)·V[row+1, col+1]))`;
note the source compares against the raw intrinsic
`asset_tree[row,col] - strike` (call) or `strike - asset_tree[row,col]`
(put), without flooring it at 0. -/
def american_step (p disc_factor : ℚ) (intrinsic : ℕ → ℕ → ℚ) (term : ℕ → ℚ)
    (N : ℕ) : ℕ → ℕ → ℚ
  | 0, row => term row
  | m + 1, row =>
      max (intrinsic row (N - (m + 1)))
        (disc_factor * (p * american_step p disc_factor intrinsic term N m row
          + (1 - p) * american_step p disc_factor intrinsic term N m (row + 1)))

/-- Raw call intrinsic value `asset_tree[row,col] - strike` used at the
non-terminal nodes of `american_option.call`. -/
def call_intrinsic (S : ℕ → ℕ → ℚ) (K : ℚ) (row col : ℕ) : ℚ :=
  S row col - K

/-- Raw put intrinsic value `strike - asset_tree[row,col]` used at the
non-terminal nodes of `american_option.put`. -/
def put_intrinsic (S : ℕ → ℕ → ℚ) (K : ℚ) (row col : ℕ) : ℚ :=
  K - S row col

/-- The value matrix `V` produced by `american_option.call`. -/
def american_call_matrix (S : ℕ → ℕ → ℚ) (K p disc_factor : ℚ) (N : ℕ)
    (row col : ℕ) : ℚ :=
  if row ≤ col ∧ col ≤ N then
    american_step p disc_factor (call_intrinsic S K) (call_terminal S K N) N
      (N - col) row
  else 0

/-- The value matrix `V` produced by `american_option.put`. -/
def american_put_matrix (S : ℕ → ℕ → ℚ) (K p disc_factor : ℚ) (N : ℕ)
    (row col : ℕ) : ℚ :=
  if row ≤ col ∧ col ≤ N then
    american_step p disc_factor (put_intrinsic S K) (put_terminal S K N) N
      (N - col) row
  else 0

/-- Method `european_option.__nCr__`: `N! / (r!·(N-r)!)` computed with exact
factorials (the Python float division is exact on these integer
values). -/
def nCr (N r : ℕ) : ℚ :=
  (Nat.factorial N : ℚ) / ((Nat.factorial r : ℚ) * (Nat.factorial (N - r) : ℚ))

/-- The call value computed by `european_option.fast_put_call`:
`dot(terminal_call_values, probabilities · nCr) · disc_factor^N` where
`probabilities[i] = p^(N-i)·(1-p)^i` and the terminal call value at row
`i` is `max(0, asset_tree[i, N] - strike)`. -/
def fast_call_value (S : ℕ → ℕ → ℚ) (K p disc_factor : ℚ) (N : ℕ) : ℚ :=
  (∑ i ∈ Finset.range (N + 1),
    call_terminal S K N i * (p ^ (N - i) * (1 - p) ^ i * nCr N i)) * disc_factor ^ N

/-- Method `european_option.call_put_parity` in the direction used by
`fast_put_call`: the put value derived from a computed call value,
`put = call + strike·disc_factor^N - asset_tree[0,0]`. -/
def call_put_parity_put (call_value K disc_factor : ℚ) (N : ℕ) (S00 : ℚ) : ℚ :=
  call_value + K * disc_factor ^ N - S00

/-- Price of the underlying after following an explicit path of moves
(`true` = up-move, `false` = down-move) from the spot price: each move
multiplies by `u` or `d`.  Used to express recombination. -/
def path_price (S0 u d : ℚ) : List Bool → ℚ
  | [] => S0
  | b :: rest => path_price S0 u d rest * (if b then u else d)

/-! ### Basic lattice lemmas -/

lemma raw_asset_matrix_valid (S0 u d : ℚ) {N row col : ℕ}
    (hrc : row ≤ col) (hcN : col ≤ N) :
    raw_asset_matrix S0 u d N row col = S0 * u ^ (col - row) * d ^ row := by
  unfold raw_asset_matrix
  split_ifs with h1 h2
  · obtain ⟨h, _⟩ := h1
    subst h
    rfl
  · rfl
  · exfalso
    omega

lemma path_price_eq_counts (S0 u d : ℚ) (bs : List Bool) :
    path_price S0 u d bs = S0 * u ^ bs.count true * d ^ bs.count false := by
  induction bs with
  | nil => simp [path_price]
  | cons b rest ih =>
    cases b <;> simp [path_price, ih, List.count_cons, pow_succ] <;> ring

lemma count_true_add_count_false (bs : List Bool) :
    bs.count true + bs.count false = bs.length := by
  induction bs with
  | nil => simp
  | cons b rest ih =>
    cases b <;> simp [List.count_cons] <;> omega

/-- Claim C1: with no dividend active, every valid lattice cell of
`underlying_asset_tree` equals `spot × u^(col-row) × d^row`, and the
price reached by any explicit up/down path depends only on the counts
of up- and down-moves: it equals the cell whose row is the number of
down-moves and whose column is the path length (recombination). -/
theorem claim_C1 (t : binomial_tree)
    (hdd : t.dividend_dollar = 0) (hdy : t.dividend_yield = 0) :
    (∀ row col, row ≤ col → col ≤ t.step →
      underlying_asset_tree t row col
        = t.spot_price * t.u ^ (col - row) * t.d ^ row)
    ∧ ∀ bs : List Bool, bs.length ≤ t.step →
      path_price t.spot_price t.u t.d bs
        = underlying_asset_tree t (bs.count false) bs.length := by
  have hcell : ∀ row col, row ≤ col → col ≤ t.step →
      underlying_asset_tree t row col
        = t.spot_price * t.u ^ (col - row) * t.d ^ row := by
    intro row col hrc hcN
    unfold underlying_asset_tree
    rw [if_neg (by simp [hdd]), if_neg (by simp [hdy])]
    exact raw_asset_matrix_valid _ _ _ hrc hcN
  refine ⟨hcell, fun bs hlen => ?_⟩
  have hcount := count_true_add_count_false bs
  rw [hcell (bs.count false) bs.length (by omega) hlen,
    path_price_eq_counts]
  have : bs.length - bs.count false = bs.count true := by omega
  rw [this]

/-- Witness for C1 at a concrete tree (S0 = 100, u = 3/2, d = 2/3,
N = 2, no dividend): the cell formula and the path-independence
statement, obtained by applying `claim_C1`. -/
theorem claim_C1_witness :
    underlying_asset_tree ⟨100, 0, 2, 3/2, 2/3, 1/2, 0, 0, none, none⟩ 1 2
        = (100 : ℚ) * (3/2) ^ (2 - 1) * (2/3) ^ 1
      ∧ path_price 100 (3/2) (2/3) [true, false]
        = underlying_asset_tree ⟨100, 0, 2, 3/2, 2/3, 1/2, 0, 0, none, none⟩
            ([true, false].count false) [true, false].length := by
  constructor
  · exact (claim_C1 ⟨100, 0, 2, 3/2, 2/3, 1/2, 0, 0, none, none⟩ rfl rfl).1
      1 2 (by norm_num) (by norm_num)
  · exact (claim_C1 ⟨100, 0, 2, 3/2, 2/3, 1/2, 0, 0, none, none⟩ rfl rfl).2
      [true, false] (by norm_num)

/-- Claim C7: with a nonzero dividend yield and no dollar dividend,
every cell of the matrix returned by `underlying_asset_tree` is the raw
lattice cell multiplied exactly once by `(1 - yield·Δt)`, uniformly
across all columns. -/
theorem claim_C7 (t : binomial_tree)
    (hdy : t.dividend_yield ≠ 0) (hdd : t.dividend_dollar = 0) :
    ∀ row col, underlying_asset_tree t row col
      = raw_asset_matrix t.spot_price t.u t.d t.step row col
          * (1 - t.dividend_yield * t.delta_t) := by
  intro row col
  unfold underlying_asset_tree
  rw [if_neg (by simp [hdd]), if_pos hdy]

/-- Witness for C7 at a concrete tree (S0 = 100, u = 3/2, d = 2/3,
N = 2, Δt = 1/2, yield 4%): applying `claim_C7` at cell (0, 2). -/
theorem claim_C7_witness :
    underlying_asset_tree ⟨100, 0, 2, 3/2, 2/3, 1/2, 0, 1/25, none, none⟩ 0 2
      = raw_asset_matrix 100 (3/2) (2/3) 2 0 2 * (1 - (1/25) * (1/2)) :=
  claim_C7 ⟨100, 0, 2, 3/2, 2/3, 1/2, 0, 1/25, none, none⟩ (by norm_num) rfl 0 2

/-- Claim C9: with a nonzero dollar dividend but neither an ex-dividend
date nor an ex-dividend step, `__dividend_tree__` returns the all-zero
matrix, so `underlying_asset_tree` returns exactly the unadjusted
lattice: the dollar dividend is silently ignored. -/
theorem claim_C9 (t : binomial_tree) (hdd : t.dividend_dollar ≠ 0)
    (hdate : t.ex_div_date_resolved = none) (hstep : t.ex_div_step = none) :
    (∀ row col, dividend_tree t row col = 0)
    ∧ ∀ row col, underlying_asset_tree t row col
        = raw_asset_matrix t.spot_price t.u t.d t.step row col := by
  have hzero : ∀ row col, dividend_tree t row col = 0 := by
    intro row col
    unfold dividend_tree
    rw [hdate, hstep]
  refine ⟨hzero, fun row col => ?_⟩
  unfold underlying_asset_tree
  rw [if_pos hdd, hzero row col, sub_zero]

/-- Witness for C9 at a concrete tree with a 5-dollar dividend and no
ex-dividend information: applying `claim_C9` at cell (0, 1). -/
theorem claim_C9_witness :
    dividend_tree ⟨100, 0, 2, 3/2, 2/3, 1/2, 5, 0, none, none⟩ 0 1 = 0
    ∧ underlying_asset_tree ⟨100, 0, 2, 3/2, 2/3, 1/2, 5, 0, none, none⟩ 0 1
        = raw_asset_matrix 100 (3/2) (2/3) 2 0 1 :=
  ⟨(claim_C9 ⟨100, 0, 2, 3/2, 2/3, 1/2, 5, 0, none, none⟩ (by norm_num) rfl rfl).1 0 1,
   (claim_C9 ⟨100, 0, 2, 3/2, 2/3, 1/2, 5, 0, none, none⟩ (by norm_num) rfl rfl).2 0 1⟩

/-- Claim C8: a configuration whose up-factor is ≤ 0 always fails
construction with a fatal error (for `u = 0` the initial XOR assertion,
for `u < 0` the explicit raise) and produces no object, whereas
`0 < u ≤ 1` only issues the non-fatal degenerate warning: construction
completes returning the tree with the warning flag set, and
`underlying_asset_tree` on the returned tree still yields the lattice
formula. -/
theorem claim_C8 :
    (∀ (S0 r T : ℚ) (N : ℕ) (u div div_yield : ℚ) (dd ds : Option ℕ),
      u ≤ 0 →
      ∃ msg, binomial_tree_init S0 r T N u div div_yield dd ds = .error msg)
    ∧ ∀ (S0 r T : ℚ) (N : ℕ) (u : ℚ), 0 < u → u ≤ 1 → 0 < N → 0 < T →
        binomial_tree_init S0 r T N u 0 0 none none
            = .ok (⟨S0, r, N, u, 1 / u, T / N, 0, 0, none, none⟩, true)
          ∧ ∀ row col, row ≤ col → col ≤ N →
            underlying_asset_tree ⟨S0, r, N, u, 1 / u, T / N, 0, 0, none, none⟩ row col
              = S0 * u ^ (col - row) * (1 / u) ^ row := by
  constructor
  · intro S0 r T N u div div_yield dd ds hu
    unfold binomial_tree_init
    split_ifs
    all_goals first
      | exact ⟨_, rfl⟩
      | (exfalso; obtain ⟨h, -⟩ := ‹0 < u ∧ u ≤ 1›; linarith)
  · intro S0 r T N u hu0 hu1 hN hT
    constructor
    · unfold binomial_tree_init
      rw [if_neg (ne_of_gt hu0), if_neg (not_not_intro hN),
        if_neg (not_not_intro hT), if_neg (by simp), if_neg (by simp),
        if_pos ⟨hu0, hu1⟩]
    · intro row col hrc hcN
      unfold underlying_asset_tree
      rw [if_neg (by simp), if_neg (by simp)]
      exact raw_asset_matrix_valid _ _ _ hrc hcN

/-- Witness for C8: construction with `u = -1` fails fatally, while
`u = 1/2` (degenerate) succeeds with the warning flag set and still
yields a computable lattice; both obtained by applying `claim_C8`. -/
theorem claim_C8_witness :
    (∃ msg, binomial_tree_init 100 0 1 2 (-1) 0 0 none none = .error msg)
    ∧ ∃ t : binomial_tree,
        binomial_tree_init 100 0 1 2 (1/2) 0 0 none none = .ok (t, true)
        ∧ underlying_asset_tree t 0 1
            = 100 * (1/2) ^ (1 - 0 : ℕ) * (1/(1/2) : ℚ) ^ (0 : ℕ) := by
  refine ⟨claim_C8.1 100 0 1 2 (-1) 0 0 none none (by norm_num),
    ⟨100, 0, 2, 1/2, 1/(1/2), 1/((2 : ℕ) : ℚ), 0, 0, none, none⟩, ?_, ?_⟩
  · exact (claim_C8.2 100 0 1 2 (1/2) (by norm_num) (by norm_num)
      (by norm_num) (by norm_num)).1
  · exact (claim_C8.2 100 0 1 2 (1/2) (by norm_num) (by norm_num)
      (by norm_num) (by norm_num)).2 0 1 (by norm_num) (by norm_num)

/-- Counterexample to claim C6 as stated: take S0 = 100, u = 3/2,
d = 2/3, N = 4, dollar dividend 6 at ex-dividend step k = 1, and the
node (row, col) = (2, 2).  The only path reaching that node is
down-down (first conjunct: the node's raw price is the price of the
path `[false, false]`), so the per-step factor of the single step
after k along the path reaching the node is `d`, and the claim
predicts a reduction of `6·d = 4`; but the code reduces the node by
`6·u = 9` (its factor rule `u while j < N+1-row` depends on the row,
not on the moves of the path): the second conjunct refutes the
claimed value and the third states the value the code produces. -/
theorem claim_C6_counterexample :
    raw_asset_matrix 100 (3/2) (2/3) 4 2 2
        = path_price 100 (3/2) (2/3) [false, false]
    ∧ underlying_asset_tree ⟨100, 0, 4, 3/2, 2/3, 1/4, 6, 0, none, some 1⟩ 2 2
        ≠ raw_asset_matrix 100 (3/2) (2/3) 4 2 2 - 6 * (2/3)
    ∧ underlying_asset_tree ⟨100, 0, 4, 3/2, 2/3, 1/4, 6, 0, none, some 1⟩ 2 2
        = raw_asset_matrix 100 (3/2) (2/3) 4 2 2 - 6 * (3/2) := by
  refine ⟨?_, ?_, ?_⟩ <;>
  norm_num [underlying_asset_tree, dividend_tree, dividend_lattice,
    logic_matrix_3, logic_matrix_4, div_cum_entry, logic_matrix_1,
    logic_matrix_2, raw_asset_matrix, path_price,
    show (Finset.Icc 1 2 : Finset ℕ) = {1, 2} from by decide]

/-- Claim C6, amended: with a nonzero dollar dividend `D` and an
explicit ex-dividend step `k`, every valid node in a column before `k`
is unchanged, every valid node in column `k` is reduced by exactly
`D`, and every valid node in a later column `col > k` is reduced by
`D` times the running product, over the steps `k+1 .. col`, of a
ROW-DEPENDENT per-step factor — `u` while the step index `j` satisfies
`j < N+1-row` and `d` afterwards — which is NOT, in general, the
factor sequence of a path reaching the node (see the counterexample);
the correction is restricted to the valid triangular region by the
`np.triu` mask. -/
theorem claim_C6_amended (t : binomial_tree) (k : ℕ)
    (hdd : t.dividend_dollar ≠ 0) (hdate : t.ex_div_date_resolved = none)
    (hstep : t.ex_div_step = some k) :
    ∀ row col, row ≤ col → col ≤ t.step →
      (col < k → underlying_asset_tree t row col
          = raw_asset_matrix t.spot_price t.u t.d t.step row col)
      ∧ (col = k → underlying_asset_tree t row col
          = raw_asset_matrix t.spot_price t.u t.d t.step row col
              - t.dividend_dollar)
      ∧ (k < col → underlying_asset_tree t row col
          = raw_asset_matrix t.spot_price t.u t.d t.step row col
              - t.dividend_dollar
                * ∏ j ∈ Finset.Ioc k col,
                    (if j < t.step + 1 - row then t.u else t.d)) := by
  intro row col hrc hcN
  have htree : underlying_asset_tree t row col
      = raw_asset_matrix t.spot_price t.u t.d t.step row col
        - dividend_lattice t.dividend_dollar t.u t.d t.step k row col := by
    unfold underlying_asset_tree
    rw [if_pos hdd]
    simp [dividend_tree, hdate, hstep]
  have hmask : logic_matrix_4 row col = 1 := if_pos hrc
  refine ⟨fun hlt => ?_, fun heq => ?_, fun hgt => ?_⟩
  · rw [htree]
    unfold dividend_lattice logic_matrix_3 logic_matrix_1
    rw [if_pos hlt, if_pos hlt, zero_mul, zero_mul, mul_zero, sub_zero]
  · subst heq
    rw [htree]
    unfold dividend_lattice logic_matrix_3
    rw [if_neg (lt_irrefl col), Finset.Icc_self, Finset.prod_singleton,
      hmask]
    rw [show div_cum_entry t.u t.d t.step col row col = 1 from if_pos rfl]
    ring
  · rw [htree]
    unfold dividend_lattice logic_matrix_3
    rw [if_neg (by omega), hmask, mul_one,
      Finset.Icc_eq_cons_Ioc (le_of_lt hgt), Finset.prod_cons]
    rw [show div_cum_entry t.u t.d t.step k row k = 1 from if_pos rfl, one_mul]
    congr 1
    refine congrArg _ (Finset.prod_congr rfl fun j hj => ?_)
    have hj' : k < j := (Finset.mem_Ioc.mp hj).1
    unfold div_cum_entry logic_matrix_1 logic_matrix_2
    rw [if_neg (by omega), if_neg (by omega), one_mul]

/-- Witness for the amended C6 at a concrete tree (S0 = 100, u = 3/2,
d = 2/3, N = 2, dollar dividend 6, ex-dividend step 1): all three
column cases, obtained by applying `claim_C6_amended`. -/
theorem claim_C6_amended_witness :
    underlying_asset_tree ⟨100, 0, 2, 3/2, 2/3, 1/2, 6, 0, none, some 1⟩ 0 0
        = raw_asset_matrix 100 (3/2) (2/3) 2 0 0
    ∧ underlying_asset_tree ⟨100, 0, 2, 3/2, 2/3, 1/2, 6, 0, none, some 1⟩ 0 1
        = raw_asset_matrix 100 (3/2) (2/3) 2 0 1 - 6
    ∧ underlying_asset_tree ⟨100, 0, 2, 3/2, 2/3, 1/2, 6, 0, none, some 1⟩ 0 2
        = raw_asset_matrix 100 (3/2) (2/3) 2 0 2
            - 6 * ∏ j ∈ Finset.Ioc 1 2, (if j < 2 + 1 - 0 then (3/2 : ℚ) else 2/3) := by
  refine ⟨?_, ?_, ?_⟩
  · exact (claim_C6_amended ⟨100, 0, 2, 3/2, 2/3, 1/2, 6, 0, none, some 1⟩ 1
      (by norm_num) rfl rfl 0 0 (by norm_num) (by norm_num)).1 (by norm_num)
  · exact (claim_C6_amended ⟨100, 0, 2, 3/2, 2/3, 1/2, 6, 0, none, some 1⟩ 1
      (by norm_num) rfl rfl 0 1 (by norm_num) (by norm_num)).2.1 rfl
  · exact (claim_C6_amended ⟨100, 0, 2, 3/2, 2/3, 1/2, 6, 0, none, some 1⟩ 1
      (by norm_num) rfl rfl 0 2 (by norm_num) (by norm_num)).2.2 (by norm_num)

/-! ### Backward-induction comparison lemmas -/

lemma european_step_le_american_step (p df : ℚ) (intr : ℕ → ℕ → ℚ)
    (term : ℕ → ℚ) (N : ℕ) (hp0 : 0 ≤ p) (hp1 : p ≤ 1) (hdf : 0 ≤ df) :
    ∀ m row, european_step p df term m row
      ≤ american_step p df intr term N m row := by
  intro m
  induction m with
  | zero => intro row; exact le_refl _
  | succ m ih =>
    intro row
    simp only [european_step, american_step]
    refine le_trans ?_ (le_max_right _ _)
    have hsum : p * european_step p df term m row
          + (1 - p) * european_step p df term m (row + 1)
        ≤ p * american_step p df intr term N m row
          + (1 - p) * american_step p df intr term N m (row + 1) :=
      add_le_add (mul_le_mul_of_nonneg_left (ih row) hp0)
        (mul_le_mul_of_nonneg_left (ih (row + 1)) (by linarith))
    exact mul_le_mul_of_nonneg_left hsum hdf

lemma european_step_nonneg (p df : ℚ) (term : ℕ → ℚ)
    (hp0 : 0 ≤ p) (hp1 : p ≤ 1) (hdf : 0 ≤ df) (hterm : ∀ r, 0 ≤ term r) :
    ∀ m row, 0 ≤ european_step p df term m row := by
  intro m
  induction m with
  | zero => exact hterm
  | succ m ih =>
    intro row
    simp only [european_step]
    exact mul_nonneg hdf (add_nonneg (mul_nonneg hp0 (ih row))
      (mul_nonneg (by linarith) (ih (row + 1))))

lemma american_step_nonneg (p df : ℚ) (intr : ℕ → ℕ → ℚ) (term : ℕ → ℚ)
    (N : ℕ) (hp0 : 0 ≤ p) (hp1 : p ≤ 1) (hdf : 0 ≤ df)
    (hterm : ∀ r, 0 ≤ term r) :
    ∀ m row, 0 ≤ american_step p df intr term N m row := by
  intro m
  induction m with
  | zero => exact hterm
  | succ m ih =>
    intro row
    simp only [american_step]
    refine le_trans ?_ (le_max_right _ _)
    exact mul_nonneg hdf (add_nonneg (mul_nonneg hp0 (ih row))
      (mul_nonneg (by linarith) (ih (row + 1))))

/-- Counterexample to claim C2 as stated: for the CRR tree with
spot 1, u = 3/2, d = 2/3, N = 2, strike 1, discrete discounting with
r·Δt = 1 (so `disc_factor = 1/2` and risk-neutral probability
8/5 ∉ [0,1]), the American put value at the root is strictly below the
European put value at the root, so American ≥ European fails at a
shared node. -/
theorem claim_C2_counterexample :
    american_put_matrix (raw_asset_matrix 1 (3/2) (2/3) 2) 1
        (risk_neutral_prob_crr (disc_factor_discrete 2 (1/2)) (3/2) (2/3))
        (disc_factor_discrete 2 (1/2)) 2 0 0
      < european_put_matrix (raw_asset_matrix 1 (3/2) (2/3) 2) 1
        (risk_neutral_prob_crr (disc_factor_discrete 2 (1/2)) (3/2) (2/3))
        (disc_factor_discrete 2 (1/2)) 2 0 0 := by
  norm_num [american_put_matrix, european_put_matrix, american_step,
    european_step, put_intrinsic, put_terminal, raw_asset_matrix,
    risk_neutral_prob_crr, disc_factor_discrete, max_def]

/-- Claim C2, amended: provided the risk-neutral probability lies in
[0,1] and the discount factor is nonnegative, the American value
lattice dominates the European value lattice at every valid node (for
both calls and puts over the same underlying matrix and strike), with
equality at the terminal column.  Without the probability/discount
hypotheses the domination fails (see the counterexample). -/
theorem claim_C2_amended (S : ℕ → ℕ → ℚ) (K p df : ℚ) (N : ℕ)
    (hp0 : 0 ≤ p) (hp1 : p ≤ 1) (hdf : 0 ≤ df) :
    ∀ row col, row ≤ col → col ≤ N →
      (european_call_matrix S K p df N row col
          ≤ american_call_matrix S K p df N row col
        ∧ european_put_matrix S K p df N row col
          ≤ american_put_matrix S K p df N row col)
      ∧ (col = N →
        american_call_matrix S K p df N row col
            = european_call_matrix S K p df N row col
          ∧ american_put_matrix S K p df N row col
            = european_put_matrix S K p df N row col) := by
  intro row col hrc hcN
  refine ⟨⟨?_, ?_⟩, ?_⟩
  · unfold european_call_matrix american_call_matrix
    rw [if_pos ⟨hrc, hcN⟩, if_pos ⟨hrc, hcN⟩]
    exact european_step_le_american_step p df _ _ N hp0 hp1 hdf (N - col) row
  · unfold european_put_matrix american_put_matrix
    rw [if_pos ⟨hrc, hcN⟩, if_pos ⟨hrc, hcN⟩]
    exact european_step_le_american_step p df _ _ N hp0 hp1 hdf (N - col) row
  · intro hN
    subst hN
    constructor
    · unfold european_call_matrix american_call_matrix
      rw [if_pos ⟨hrc, le_refl col⟩, if_pos ⟨hrc, le_refl col⟩]
      simp only [Nat.sub_self]
      rfl
    · unfold european_put_matrix american_put_matrix
      rw [if_pos ⟨hrc, le_refl col⟩, if_pos ⟨hrc, le_refl col⟩]
      simp only [Nat.sub_self]
      rfl

/-- Witness for the amended C2 at the CRR tree with spot 1, u = 2,
d = 1/2, N = 2, strike 1, discount factor 2/3: the risk-neutral
probability is 2/3 ∈ [0,1] and the European put root value is below
the American put root value, via `claim_C2_amended`. -/
theorem claim_C2_amended_witness :
    (0 : ℚ) ≤ risk_neutral_prob_crr (2/3) 2 (1/2)
    ∧ risk_neutral_prob_crr (2/3) 2 (1/2) ≤ 1
    ∧ european_put_matrix (raw_asset_matrix 1 2 (1/2) 2) 1
        (risk_neutral_prob_crr (2/3) 2 (1/2)) (2/3) 2 0 0
      ≤ american_put_matrix (raw_asset_matrix 1 2 (1/2) 2) 1
        (risk_neutral_prob_crr (2/3) 2 (1/2)) (2/3) 2 0 0 :=
  ⟨by norm_num [risk_neutral_prob_crr], by norm_num [risk_neutral_prob_crr],
    ((claim_C2_amended (raw_asset_matrix 1 2 (1/2) 2) 1
        (risk_neutral_prob_crr (2/3) 2 (1/2)) (2/3) 2
        (by norm_num [risk_neutral_prob_crr])
        (by norm_num [risk_neutral_prob_crr]) (by norm_num)
      0 0 (le_refl 0) (by norm_num)).1).2⟩

/-- Counterexample to claim C5 as stated: with spot 1, u = 3/2,
d = 2/3, N = 2, strike 1/2, discrete discounting with r·Δt = 1, the
American put value at node (1,1) is -1/60, whereas the claim's formula
with the intrinsic value floored at zero gives
max(max(0, K-S), continuation) = 0: the source does not floor the
intrinsic value at non-terminal nodes. -/
theorem claim_C5_counterexample :
    american_put_matrix (raw_asset_matrix 1 (3/2) (2/3) 2) (1/2)
        (risk_neutral_prob_crr (disc_factor_discrete 2 (1/2)) (3/2) (2/3))
        (disc_factor_discrete 2 (1/2)) 2 1 1
      ≠ max (max 0 ((1/2 : ℚ) - raw_asset_matrix 1 (3/2) (2/3) 2 1 1))
          (disc_factor_discrete 2 (1/2)
            * (risk_neutral_prob_crr (disc_factor_discrete 2 (1/2)) (3/2) (2/3)
                * american_put_matrix (raw_asset_matrix 1 (3/2) (2/3) 2) (1/2)
                    (risk_neutral_prob_crr (disc_factor_discrete 2 (1/2)) (3/2) (2/3))
                    (disc_factor_discrete 2 (1/2)) 2 1 2
              + (1 - risk_neutral_prob_crr (disc_factor_discrete 2 (1/2)) (3/2) (2/3))
                * american_put_matrix (raw_asset_matrix 1 (3/2) (2/3) 2) (1/2)
                    (risk_neutral_prob_crr (disc_factor_discrete 2 (1/2)) (3/2) (2/3))
                    (disc_factor_discrete 2 (1/2)) 2 2 2)) := by
  norm_num [american_put_matrix, american_step, put_intrinsic, put_terminal,
    raw_asset_matrix, risk_neutral_prob_crr, disc_factor_discrete, max_def]

/-- Claim C5, amended: every non-terminal American node value equals
max(intrinsic, df·(p·V[up-child] + (1-p)·V[down-child])) where the
intrinsic value is the RAW payoff, not floored at zero: S-K for a
call and K-S for a put (the source floors only the terminal column,
which is max(0, ±(S-K)) as claimed). -/
theorem claim_C5_amended (S : ℕ → ℕ → ℚ) (K p df : ℚ) (N : ℕ) :
    (∀ row, row ≤ N →
      american_call_matrix S K p df N row N = max 0 (S row N - K)
      ∧ american_put_matrix S K p df N row N = max 0 (K - S row N))
    ∧ ∀ row col, row ≤ col → col < N →
      american_call_matrix S K p df N row col
          = max (S row col - K)
              (df * (p * american_call_matrix S K p df N row (col + 1)
                + (1 - p) * american_call_matrix S K p df N (row + 1) (col + 1)))
      ∧ american_put_matrix S K p df N row col
          = max (K - S row col)
              (df * (p * american_put_matrix S K p df N row (col + 1)
                + (1 - p) * american_put_matrix S K p df N (row + 1) (col + 1))) := by
  constructor
  · intro row hrow
    constructor
    · unfold american_call_matrix
      rw [if_pos ⟨hrow, le_refl N⟩, Nat.sub_self]
      rfl
    · unfold american_put_matrix
      rw [if_pos ⟨hrow, le_refl N⟩, Nat.sub_self]
      rfl
  · intro row col hrc hcN
    have h1 : row ≤ col ∧ col ≤ N := ⟨hrc, by omega⟩
    have h2 : row ≤ col + 1 ∧ col + 1 ≤ N := ⟨by omega, by omega⟩
    have h3 : row + 1 ≤ col + 1 ∧ col + 1 ≤ N := ⟨by omega, by omega⟩
    have hm : N - col = (N - (col + 1)) + 1 := by omega
    have hcol : N - (N - (col + 1) + 1) = col := by omega
    constructor
    · unfold american_call_matrix
      rw [if_pos h1, if_pos h2, if_pos h3, hm, american_step, hcol]
      rfl
    · unfold american_put_matrix
      rw [if_pos h1, if_pos h2, if_pos h3, hm, american_step, hcol]
      rfl

/-- Witness for the amended C5: the non-terminal recurrence with raw
intrinsic value at the root node of a concrete tree (spot 100,
u = 3/2, d = 2/3, N = 2, strike 90, p = 1/2, df = 1), via
`claim_C5_amended`. -/
theorem claim_C5_amended_witness :
    american_call_matrix (raw_asset_matrix 100 (3/2) (2/3) 2) 90 (1/2) 1 2 0 0
      = max (raw_asset_matrix 100 (3/2) (2/3) 2 0 0 - 90)
          (1 * ((1/2)
              * american_call_matrix (raw_asset_matrix 100 (3/2) (2/3) 2) 90
                  (1/2) 1 2 0 1
            + (1 - 1/2)
              * american_call_matrix (raw_asset_matrix 100 (3/2) (2/3) 2) 90
                  (1/2) 1 2 1 1)) :=
  ((claim_C5_amended (raw_asset_matrix 100 (3/2) (2/3) 2) 90 (1/2) 1 2).2
    0 0 (le_refl 0) (by norm_num)).1

/-- Claim C10: when the risk-neutral probability lies in [0,1] and the
discount factor is nonnegative, every cell of all four value matrices
(European/American, call/put) is nonnegative — valid nodes by
induction from the floored terminal payoffs, unassigned cells because
they keep the `np.zeros` value. -/
theorem claim_C10 (S : ℕ → ℕ → ℚ) (K p df : ℚ) (N : ℕ)
    (hp0 : 0 ≤ p) (hp1 : p ≤ 1) (hdf : 0 ≤ df) :
    ∀ row col,
      0 ≤ european_call_matrix S K p df N row col
      ∧ 0 ≤ european_put_matrix S K p df N row col
      ∧ 0 ≤ american_call_matrix S K p df N row col
      ∧ 0 ≤ american_put_matrix S K p df N row col := by
  intro row col
  refine ⟨?_, ?_, ?_, ?_⟩
  · unfold european_call_matrix
    split_ifs
    · exact european_step_nonneg p df _ hp0 hp1 hdf
        (fun r => le_max_left 0 _) (N - col) row
    · exact le_refl 0
  · unfold european_put_matrix
    split_ifs
    · exact european_step_nonneg p df _ hp0 hp1 hdf
        (fun r => le_max_left 0 _) (N - col) row
    · exact le_refl 0
  · unfold american_call_matrix
    split_ifs
    · exact american_step_nonneg p df _ _ N hp0 hp1 hdf
        (fun r => le_max_left 0 _) (N - col) row
    · exact le_refl 0
  · unfold american_put_matrix
    split_ifs
    · exact american_step_nonneg p df _ _ N hp0 hp1 hdf
        (fun r => le_max_left 0 _) (N - col) row
    · exact le_refl 0

/-- Witness for C10 at a concrete instance (spot 100, u = 3/2,
d = 2/3, N = 2, strike 90, p = 1/2, df = 1, node (0,0)), via
`claim_C10`. -/
theorem claim_C10_witness :
    (0 : ℚ) ≤ 1/2 ∧ (1 : ℚ)/2 ≤ 1 ∧ (0 : ℚ) ≤ 1
    ∧ 0 ≤ european_call_matrix (raw_asset_matrix 100 (3/2) (2/3) 2) 90 (1/2) 1 2 0 0
    ∧ 0 ≤ american_put_matrix (raw_asset_matrix 100 (3/2) (2/3) 2) 90 (1/2) 1 2 0 0 :=
  ⟨by norm_num, by norm_num, by norm_num,
    (claim_C10 (raw_asset_matrix 100 (3/2) (2/3) 2) 90 (1/2) 1 2
      (by norm_num) (by norm_num) (by norm_num) 0 0).1,
    (claim_C10 (raw_asset_matrix 100 (3/2) (2/3) 2) 90 (1/2) 1 2
      (by norm_num) (by norm_num) (by norm_num) 0 0).2.2.2⟩

/-! ### Closed form of the European backward induction (fast path) -/

lemma nCr_eq_choose {N i : ℕ} (h : i ≤ N) : nCr N i = (Nat.choose N i : ℚ) := by
  rw [nCr, Nat.cast_choose ℚ h]

lemma european_step_eq_sum (p df : ℚ) (term : ℕ → ℚ) :
    ∀ m row, european_step p df term m row
      = df ^ m * ∑ j ∈ Finset.range (m + 1),
          (Nat.choose m j : ℚ) * p ^ (m - j) * (1 - p) ^ j * term (row + j) := by
  intro m
  induction m with
  | zero => intro row; simp [european_step]
  | succ m ih =>
    intro row
    have hB : (1 - p) * ∑ j ∈ Finset.range (m + 1),
          (Nat.choose m j : ℚ) * p ^ (m - j) * (1 - p) ^ j * term (row + 1 + j)
        = ∑ j ∈ Finset.range (m + 1),
          (Nat.choose m j : ℚ) * p ^ (m - j) * (1 - p) ^ (j + 1) * term (row + 1 + j) := by
      rw [Finset.mul_sum]
      refine Finset.sum_congr rfl fun j _ => ?_
      ring
    have hA : p * ∑ j ∈ Finset.range (m + 1),
          (Nat.choose m j : ℚ) * p ^ (m - j) * (1 - p) ^ j * term (row + j)
        = (∑ j ∈ Finset.range m,
            (Nat.choose m (j + 1) : ℚ) * p ^ (m - j) * (1 - p) ^ (j + 1) * term (row + 1 + j))
          + p ^ (m + 1) * term row := by
      rw [Finset.sum_range_succ'
        (fun j => (Nat.choose m j : ℚ) * p ^ (m - j) * (1 - p) ^ j * term (row + j)) m]
      rw [mul_add, Finset.mul_sum]
      congr 1
      · refine Finset.sum_congr rfl fun j hj => ?_
        have hj' : j < m := Finset.mem_range.mp hj
        have hexp : m - j = (m - (j + 1)) + 1 := by omega
        have hrow : row + (j + 1) = row + 1 + j := by ring
        rw [hexp, hrow]
        ring
      · simp [Nat.choose_zero_right]
        ring
    have hsplit : ∑ j ∈ Finset.range (m + 2),
        (Nat.choose (m + 1) j : ℚ) * p ^ (m + 1 - j) * (1 - p) ^ j * term (row + j)
        = (∑ j ∈ Finset.range (m + 1),
            (Nat.choose m j : ℚ) * p ^ (m - j) * (1 - p) ^ (j + 1) * term (row + 1 + j))
          + ((∑ j ∈ Finset.range m,
              (Nat.choose m (j + 1) : ℚ) * p ^ (m - j) * (1 - p) ^ (j + 1) * term (row + 1 + j))
            + p ^ (m + 1) * term row) := by
      rw [Finset.sum_range_succ'
        (fun j => (Nat.choose (m + 1) j : ℚ) * p ^ (m + 1 - j) * (1 - p) ^ j * term (row + j))
        (m + 1)]
      have hterm : ∀ j ∈ Finset.range (m + 1),
          (Nat.choose (m + 1) (j + 1) : ℚ) * p ^ (m + 1 - (j + 1)) * (1 - p) ^ (j + 1)
              * term (row + (j + 1))
            = (Nat.choose m j : ℚ) * p ^ (m - j) * (1 - p) ^ (j + 1) * term (row + 1 + j)
              + (Nat.choose m (j + 1) : ℚ) * p ^ (m - j) * (1 - p) ^ (j + 1) * term (row + 1 + j) := by
        intro j _
        have hexp : m + 1 - (j + 1) = m - j := by omega
        have hrow : row + (j + 1) = row + 1 + j := by ring
        rw [hexp, hrow, Nat.choose_succ_succ]
        push_cast
        ring
      rw [Finset.sum_congr rfl hterm, Finset.sum_add_distrib,
        Finset.sum_range_succ
          (fun j => (Nat.choose m (j + 1) : ℚ) * p ^ (m - j) * (1 - p) ^ (j + 1) * term (row + 1 + j))
          m]
      simp [Nat.choose_succ_self]
      ring
    rw [european_step, ih row, ih (row + 1)]
    have alg : ∀ a b : ℚ,
        df * (p * (df ^ m * a) + (1 - p) * (df ^ m * b))
          = df ^ (m + 1) * (p * a + (1 - p) * b) := by
      intro a b
      ring
    rw [alg, hA, hB, hsplit]
    ring

/-- Claim C3: the call value computed by `fast_put_call` — the
discounted binomial expectation of the terminal call payoffs — equals
the root value `V[0,0]` of the lattice produced by
`european_option.call` by full backward induction, exactly (the source
only claims floating-point tolerance; over exact rationals the two are
equal), for every underlying matrix, strike, probability and discount
factor. -/
theorem claim_C3 (S : ℕ → ℕ → ℚ) (K p df : ℚ) (N : ℕ) :
    fast_call_value S K p df N = european_call_matrix S K p df N 0 0 := by
  unfold european_call_matrix
  rw [if_pos ⟨le_refl 0, Nat.zero_le N⟩, Nat.sub_zero,
    european_step_eq_sum p df (call_terminal S K N) N 0]
  unfold fast_call_value
  rw [mul_comm]
  congr 1
  refine Finset.sum_congr rfl fun i hi => ?_
  have hi' : i ≤ N := by
    have := Finset.mem_range.mp hi
    omega
  rw [nCr_eq_choose hi', Nat.zero_add]
  ring

/-! ### Put-call parity -/

lemma crr_martingale (df u d : ℚ) (hdf : df ≠ 0) (hud : u ≠ d) :
    df * (risk_neutral_prob_crr df u d * u
      + (1 - risk_neutral_prob_crr df u d) * d) = 1 := by
  have hsub : u - d ≠ 0 := sub_ne_zero.mpr hud
  have hp : risk_neutral_prob_crr df u d * (u - d) = 1 / df - d := by
    unfold risk_neutral_prob_crr
    field_simp
    ring
  calc df * (risk_neutral_prob_crr df u d * u
        + (1 - risk_neutral_prob_crr df u d) * d)
      = df * (d + risk_neutral_prob_crr df u d * (u - d)) := by ring
    _ = df * (d + (1 / df - d)) := by rw [hp]
    _ = df * (1 / df) := by ring
    _ = 1 := by field_simp

lemma european_step_parity (p df K S0 u d : ℚ) (N : ℕ)
    (hmart : df * (p * u + (1 - p) * d) = 1) :
    ∀ m row, row + m ≤ N →
      european_step p df (call_terminal (raw_asset_matrix S0 u d N) K N) m row
        - european_step p df (put_terminal (raw_asset_matrix S0 u d N) K N) m row
      = S0 * u ^ (N - row - m) * d ^ row - K * df ^ m := by
  intro m
  induction m with
  | zero =>
    intro row hrow
    simp only [european_step, call_terminal, put_terminal, Nat.sub_zero,
      pow_zero, mul_one]
    have hrawN : raw_asset_matrix S0 u d N row N = S0 * u ^ (N - row) * d ^ row :=
      raw_asset_matrix_valid S0 u d (by omega) (le_refl N)
    rw [hrawN]
    rcases le_total K (S0 * u ^ (N - row) * d ^ row) with h | h
    · rw [max_eq_right (by linarith), max_eq_left (by linarith)]
      ring
    · rw [max_eq_left (by linarith), max_eq_right (by linarith)]
      ring
  | succ m ih =>
    intro row hrow
    simp only [european_step]
    have h1 := ih row (by omega)
    have h2 := ih (row + 1) (by omega)
    have e1 : N - row - m = (N - row - (m + 1)) + 1 := by omega
    have e2 : N - (row + 1) - m = N - row - (m + 1) := by omega
    rw [e1] at h1
    rw [e2] at h2
    have expand : df * (p * european_step p df
          (call_terminal (raw_asset_matrix S0 u d N) K N) m row
        + (1 - p) * european_step p df
          (call_terminal (raw_asset_matrix S0 u d N) K N) m (row + 1))
      - df * (p * european_step p df
          (put_terminal (raw_asset_matrix S0 u d N) K N) m row
        + (1 - p) * european_step p df
          (put_terminal (raw_asset_matrix S0 u d N) K N) m (row + 1))
      = df * (p * (european_step p df
            (call_terminal (raw_asset_matrix S0 u d N) K N) m row
          - european_step p df
            (put_terminal (raw_asset_matrix S0 u d N) K N) m row)
        + (1 - p) * (european_step p df
            (call_terminal (raw_asset_matrix S0 u d N) K N) m (row + 1)
          - european_step p df
            (put_terminal (raw_asset_matrix S0 u d N) K N) m (row + 1))) := by
      ring
    rw [expand, h1, h2]
    linear_combination (S0 * u ^ (N - row - (m + 1)) * d ^ row) * hmart

/-- Claim C4: for a raw (no-dividend) CRR lattice with the source's
risk-neutral probability `(1/df - d)/(u - d)`, the root call and put
values computed independently by backward induction satisfy
`call - put = spot - K·df^N` exactly, and the put derived from the
call by `call_put_parity` satisfies the same identity by
construction.  The hypotheses `df ≠ 0` and `u ≠ d` model the divisions
the source performs when it computes the probability. -/
theorem claim_C4 (S0 u d K df : ℚ) (N : ℕ) (hdf : df ≠ 0) (hud : u ≠ d) :
    european_call_matrix (raw_asset_matrix S0 u d N) K
        (risk_neutral_prob_crr df u d) df N 0 0
      - european_put_matrix (raw_asset_matrix S0 u d N) K
        (risk_neutral_prob_crr df u d) df N 0 0
      = S0 - K * df ^ N
    ∧ european_call_matrix (raw_asset_matrix S0 u d N) K
        (risk_neutral_prob_crr df u d) df N 0 0
      - call_put_parity_put
          (european_call_matrix (raw_asset_matrix S0 u d N) K
            (risk_neutral_prob_crr df u d) df N 0 0)
          K df N (raw_asset_matrix S0 u d N 0 0)
      = S0 - K * df ^ N := by
  have hS00 : raw_asset_matrix S0 u d N 0 0 = S0 := by
    rw [raw_asset_matrix_valid S0 u d (le_refl 0) (Nat.zero_le N)]
    simp
  constructor
  · unfold european_call_matrix european_put_matrix
    rw [if_pos ⟨le_refl 0, Nat.zero_le N⟩, if_pos ⟨le_refl 0, Nat.zero_le N⟩,
      Nat.sub_zero]
    have := european_step_parity (risk_neutral_prob_crr df u d) df K S0 u d N
      (crr_martingale df u d hdf hud) N 0 (by omega)
    rw [this]
    simp
  · unfold call_put_parity_put
    rw [hS00]
    ring

/-- Witness for C4 at a concrete lattice (spot 1, u = 3/2, d = 2/3,
strike 1, df = 1/2, N = 2), via `claim_C4`. -/
theorem claim_C4_witness :
    european_call_matrix (raw_asset_matrix 1 (3/2) (2/3) 2) 1
        (risk_neutral_prob_crr (1/2) (3/2) (2/3)) (1/2) 2 0 0
      - european_put_matrix (raw_asset_matrix 1 (3/2) (2/3) 2) 1
        (risk_neutral_prob_crr (1/2) (3/2) (2/3)) (1/2) 2 0 0
      = 1 - 1 * (1/2 : ℚ) ^ 2
    ∧ european_call_matrix (raw_asset_matrix 1 (3/2) (2/3) 2) 1
        (risk_neutral_prob_crr (1/2) (3/2) (2/3)) (1/2) 2 0 0
      - call_put_parity_put
          (european_call_matrix (raw_asset_matrix 1 (3/2) (2/3) 2) 1
            (risk_neutral_prob_crr (1/2) (3/2) (2/3)) (1/2) 2 0 0)
          1 (1/2) 2 (raw_asset_matrix 1 (3/2) (2/3) 2 0 0)
      = 1 - 1 * (1/2 : ℚ) ^ 2 :=
  claim_C4 1 (3/2) (2/3) 1 (1/2) 2 (by norm_num) (by norm_num)

end PyOp3
